import Mathlib

/-!
Shallow embedding of `Anime_renamer.py` (single-file media renamer).

Strings are modelled as `List Char`.  The handful of regular expressions the
program uses are simple enough to be compiled by hand into recursive scanners;
each scanner mirrors Python `re.sub` / `re.search` / `re.finditer` semantics
(leftmost match, alternatives tried left to right at each position, greedy
quantifiers with the backtracking actually reachable for these patterns).
Scanners that consume more than one character per step take an explicit fuel
argument (initialised with the length of the input, which bounds the number of
steps) so that every definition is structurally recursive and computable by
`decide` / `rfl`.

Modelling approximations, stated once here:
* Python `str.lower` / `\d` / `[a-zA-Z0-9]` are modelled on ASCII
  (`Char.toLower`, `Char.isDigit`, `Char.isAlphanum`), which is exact for the
  program's keyword and registry data;
* `\s` is modelled as the six ASCII whitespace characters;
* `\w` (used only for the `\b` boundaries) is modelled as ASCII alphanumerics,
  `_`, and the two CJK characters `第`/`话` that the program's own patterns
  mention; other non-ASCII word characters are approximated as non-word.
-/

namespace AnimeRenamer

def str (s : String) : List Char := s.toList

def isWs (c : Char) : Bool :=
  c = ' ' || c = '\t' || c = '\n' || c = '\r' || c = Char.ofNat 11 || c = Char.ofNat 12

def isAlnumA (c : Char) : Bool := c.isAlpha || c.isDigit

/-- Model of `\w` for the `\b` word boundaries (see header for the approximation). -/
def isWordChar (c : Char) : Bool := c.isAlphanum || c = '_' || c = '第' || c = '话'

/-- Does lower-cased `s` start with (already lower-case) `k`? -/
def startsWithCI : List Char → List Char → Bool
  | [], _ => true
  | _ :: _, [] => false
  | k :: ks, c :: cs => (c.toLower = k) && startsWithCI ks cs

/-- Is (already lower-case) `k` a substring of lower-cased `s`?
Models Python `k in s.lower()`. -/
def substrCI (k : List Char) : List Char → Bool
  | [] => k.isEmpty
  | c :: cs => startsWithCI k (c :: cs) || substrCI k cs

/-- The technical-keyword list, in source order (all entries are lower case). -/
def technical_keywords : List (List Char) :=
  [str "1080p", str "720p", str "2160p", str "x265", str "x264", str "ac3",
   str "flac", str "hevc", str "ma10p", str "web-dl", str "bdrip", str "webrip",
   str "big5", str "hi10p", str "aac", str "avc", str "web", str "multisub",
   str "multi-subs", str "1080", str "1920"]

/-- Test used by `re.sub(r'\[[a-zA-Z0-9]{8}\]', '', text)` at a position whose
current character is `[`: the next 8 characters are alphanumeric and the 9th
is `]`. -/
def hashTest (cs : List Char) : Bool :=
  (cs.take 8).length = 8 && (cs.take 8).all isAlnumA && (cs.drop 8).head? = some ']'

/-- Leftmost non-overlapping removal of `[8 alphanumerics]` substrings.
Fuel-indexed; `removeHash` below supplies sufficient fuel. -/
def removeHashF : Nat → List Char → List Char
  | 0, _ => []
  | _ + 1, [] => []
  | fuel + 1, c :: cs =>
    if c = '[' && hashTest cs then removeHashF fuel (cs.drop 9)
    else c :: removeHashF fuel cs

def removeHash (l : List Char) : List Char := removeHashF l.length l

/-- Leftmost non-overlapping case-insensitive removal of the literal keyword
`k₀ :: ks` (given lower-case), as `re.sub(keyword, '', text, flags=IGNORECASE)`
does for these metacharacter-free keywords. -/
def removeAllCIF (k₀ : Char) (ks : List Char) : Nat → List Char → List Char
  | 0, _ => []
  | _ + 1, [] => []
  | fuel + 1, c :: cs =>
    if c.toLower = k₀ && startsWithCI ks cs then removeAllCIF k₀ ks fuel (cs.drop ks.length)
    else c :: removeAllCIF k₀ ks fuel cs

def removeOneKw (l : List Char) (k : List Char) : List Char :=
  match k with
  | [] => l
  | k₀ :: ks => removeAllCIF k₀ ks l.length l

/-- Sequential removal of every technical keyword, in source order. -/
def removeKeywords (l : List Char) : List Char :=
  technical_keywords.foldl removeOneKw l

/-- Model of `re.sub(r'\[\s*\]', '[]', text)`: rewrite every `[`, whitespace run, `]`
to the two-character marker `[]`. -/
def emptyBrF : Nat → List Char → List Char
  | 0, _ => []
  | _ + 1, [] => []
  | fuel + 1, c :: cs =>
    if c = '[' && (cs.dropWhile isWs).head? = some ']' then
      '[' :: ']' :: emptyBrF fuel (cs.dropWhile isWs).tail
    else c :: emptyBrF fuel cs

def emptyBr (l : List Char) : List Char := emptyBrF l.length l

/-- Model of `re.sub(r'\s{2,}', ' ', text)`: collapse every run of 2+ whitespace
characters to a single space (runs of exactly one are kept verbatim). -/
def isWsHead : List Char → Bool
  | [] => false
  | c :: _ => isWs c

def collapseWsF : Nat → List Char → List Char
  | 0, _ => []
  | _ + 1, [] => []
  | fuel + 1, c :: cs =>
    if isWs c && isWsHead cs then ' ' :: collapseWsF fuel (cs.dropWhile isWs)
    else c :: collapseWsF fuel cs

def collapseWs (l : List Char) : List Char := collapseWsF l.length l

/-- Remove trailing whitespace. -/
def dropTrailWs : List Char → List Char
  | [] => []
  | c :: cs => if (dropTrailWs cs).isEmpty && isWs c then [] else c :: dropTrailWs cs

/-- Python `str.strip()` (whitespace on both ends). -/
def stripWs (l : List Char) : List Char := dropTrailWs (l.dropWhile isWs)

/-- The `remove_technical_keywords_and_noise` step of `preprocess_filename`:
hash removal, keyword erasure, empty-bracket collapse, whitespace
normalisation, in source order. -/
def remove_technical_keywords_and_noise (text : List Char) : List Char :=
  stripWs (collapseWs (emptyBr (removeKeywords (removeHash text))))

def sepChars : List Char := ['.', '-', '_', '[', ']', '(', ')', '&', '/']

def sepReplace (c : Char) : Char := if c ∈ sepChars then '|' else c

/-- Python `s.split('|')`. -/
def splitPipe : List Char → List (List Char)
  | [] => [[]]
  | c :: cs =>
    match splitPipe cs with
    | [] => [[c]]
    | p :: ps => if c = '|' then [] :: p :: ps else (c :: p) :: ps

/-- Model of `preprocess_filename`: returns (cleaned name, pipe-separated name,
trimmed non-empty non-technical segments). -/
def preprocess_filename (filename : List Char) : List Char × List Char × List (List Char) :=
  let original_filename := remove_technical_keywords_and_noise filename
  let processed_filename := original_filename.map sepReplace
  let parts :=
    ((splitPipe processed_filename).filter
      (fun p => !(stripWs p).isEmpty && !(technical_keywords.any (fun k => substrCI k p)))).map
      stripWs
  (original_filename, processed_filename, parts)

/-- Does a segment advertise a group role (`'sub' in part.lower() or
'studio' in part.lower()`)? -/
def hasSubStudio (p : List Char) : Bool :=
  substrCI (str "sub") p || substrCI (str "studio") p

/-- Model of `identify_subtitle_group`, mirroring the source's four-step cascade. -/
def identify_subtitle_group (original_filename : List Char) (parts : List (List Char))
    (groups : List (List Char)) : List Char :=
  let matched_groups := groups.filter (fun g => substrCI (g.map Char.toLower) original_filename)
  if matched_groups.length > 1 then List.intercalate ['&'] matched_groups
  else
    match matched_groups with
    | [g] => g
    | _ =>
      match parts.find? hasSubStudio with
      | some p => stripWs p
      | none =>
        match parts with
        | p :: _ => p
        | [] => str "UNKnownSub"

/-- Python `str.zfill(2)`. -/
def zfill2 (ds : List Char) : List Char := List.replicate (2 - ds.length) '0' ++ ds

/-- One position of `([Ss]eason\s*(\d+)|[Ss](\d+))` (no IGNORECASE flag):
alternative 1 tried first; when it fails (no `eason`, or no digits after the
optional whitespace) alternative 2 is tried at the same position; returns the
greedy `\d+` group. -/
def seasonAt (_prev : Option Char) (l : List Char) : Option (List Char) :=
  match l with
  | [] => none
  | c :: cs =>
    if c = 'S' ∨ c = 's' then
      if cs.take 5 = str "eason" then
        let ds := ((cs.drop 5).dropWhile isWs).takeWhile Char.isDigit
        if ds.isEmpty then
          let ds2 := cs.takeWhile Char.isDigit
          if ds2.isEmpty then none else some ds2
        else some ds
      else
        let ds2 := cs.takeWhile Char.isDigit
        if ds2.isEmpty then none else some ds2
    else none

/-- Generic leftmost-match scanner: try `pat` at every position, tracking the
previous character (needed for the `\b` boundaries). -/
def findMatch {α : Type} (pat : Option Char → List Char → Option α) :
    Option Char → List Char → Option α
  | prev, [] => pat prev []
  | prev, c :: cs =>
    match pat prev (c :: cs) with
    | some r => some r
    | none => findMatch pat (some c) cs

/-- Model of `identify_season`: first match of the season pattern, `zfill(2)`-padded;
default `"01"`. -/
def identify_season (original_filename : List Char) : List Char :=
  match findMatch seasonAt none original_filename with
  | some ds => zfill2 ds
  | none => str "01"

/-- Word boundary after a word character: next character absent or non-word. -/
def bndAfter : List Char → Bool
  | [] => true
  | c :: _ => !(isWordChar c)

/-- Word boundary before a word character: previous character absent or
non-word. -/
def prevOkB : Option Char → Bool
  | none => true
  | some c => !(isWordChar c)

/-- Matcher for `\d{1,2}\b` with the reachable backtracking (greedy two digits, falling
back to one only if the second character is not a digit); returns how many
digits were consumed. -/
def matchD12B : List Char → Option Nat
  | [] => none
  | [d1] => if d1.isDigit then some 1 else none
  | d1 :: d2 :: t =>
    if d1.isDigit then
      if d2.isDigit then
        if bndAfter t then some 2 else none
      else
        if !(isWordChar d2) then some 1 else none
    else none

def headDigit : List Char → Bool
  | [] => false
  | c :: _ => c.isDigit

/-- Greedy `(\d{1,2})` group: up to two leading digits. -/
def take2d (l : List Char) : List Char := (l.takeWhile Char.isDigit).take 2

/-- Episode pattern 1, `E(p)?(\d{1,2})` with IGNORECASE and no boundaries;
returns the digit group. -/
def ep1At (_prev : Option Char) (l : List Char) : Option (List Char) :=
  match l with
  | [] => none
  | c :: cs =>
    if c.toLower = 'e' then
      match cs with
      | [] => none
      | p :: rest =>
        if p.toLower = 'p' then
          if headDigit rest then some (take2d rest) else none
        else
          if headDigit cs then some (take2d cs) else none
    else none

/-- Episode pattern 2, `\b第(\d{1,2})话\b`; returns the digit group
(greedy two digits, backtracking to one only when the second character is
`话` rather than a digit). -/
def ep2At (prev : Option Char) (l : List Char) : Option (List Char) :=
  if prevOkB prev then
    match l with
    | c :: d1 :: d2 :: rest =>
      if c = '第' then
        if d1.isDigit then
          if d2.isDigit then
            match rest with
            | x :: t => if x = '话' then (if bndAfter t then some [d1, d2] else none) else none
            | [] => none
          else
            if d2 = '话' then (if bndAfter rest then some [d1] else none) else none
        else none
      else none
    | _ => none
  else none

/-- Episode pattern 3, `\b(\d{1,2})-(\d{1,2})\b`; returns the FIRST number of
the range (the source's `'-' in match.group(0)` branch extracts group 1). -/
def ep3At (prev : Option Char) (l : List Char) : Option (List Char) :=
  if prevOkB prev then
    match l with
    | d1 :: d2 :: r2 =>
      if d1.isDigit then
        if d2.isDigit then
          match r2 with
          | x :: r3 =>
            if x = '-' then (if (matchD12B r3).isSome then some [d1, d2] else none) else none
          | [] => none
        else
          if d2 = '-' then
            if (matchD12B r2).isSome then some [d1] else none
          else none
      else none
    | _ => none
  else none

/-- Episode pattern 4, `\b(\d{1,2})\b`; returns the digit group. -/
def ep4At (prev : Option Char) (l : List Char) : Option (List Char) :=
  if prevOkB prev then (matchD12B l).map (fun k => l.take k) else none

/-- Model of `identify_episode`: ordered pattern cascade, first match of the first
matching pattern wins, `zfill(2)`; default `"01"`.

The source additionally guards each accepted candidate with
`len(number) <= 2` before returning; every candidate any of the four
patterns can produce has at most two digits (the digit groups are `\d{1,2}`;
see `ep_candidate_short` below), so the guard always passes and plain
first-match semantics is faithful. -/
def identify_episode (original_filename : List Char) : List Char :=
  match findMatch ep1At none original_filename with
  | some n => zfill2 n
  | none =>
  match findMatch ep2At none original_filename with
  | some n => zfill2 n
  | none =>
  match findMatch ep3At none original_filename with
  | some n => zfill2 n
  | none =>
  match findMatch ep4At none original_filename with
  | some n => zfill2 n
  | none => str "01"

/-- One position of `identify_anime_name`'s season pattern
`\b([Ss]eason\s*(\d{1,2})|[Ss](\d{1,2}))\b` with IGNORECASE;
returns the length of the whole match (for substitution). -/
def seasonSubAt (prev : Option Char) (l : List Char) : Option Nat :=
  if prevOkB prev then
    match l with
    | [] => none
    | c :: cs =>
      if c.toLower = 's' then
        let alt1 : Option Nat :=
          if (cs.take 5).map Char.toLower = str "eason" then
            let nws := ((cs.drop 5).takeWhile isWs).length
            ((matchD12B ((cs.drop 5).dropWhile isWs)).map (fun k => 6 + nws + k))
          else none
        match alt1 with
        | some n => some n
        | none => (matchD12B cs).map (fun k => 1 + k)
      else none
  else none

/-- One position of `identify_anime_name`'s episode pattern
`\b[Ee](p)?(\d{1,2})\b|\b(\d{1,2})\b` with IGNORECASE;
returns the length of the whole match (for substitution). -/
def episodeSubAt (prev : Option Char) (l : List Char) : Option Nat :=
  if prevOkB prev then
    match l with
    | [] => none
    | c :: cs =>
      let alt1 : Option Nat :=
        if c.toLower = 'e' then
          match cs with
          | [] => none
          | p :: rest =>
            if p.toLower = 'p' then (matchD12B rest).map (fun k => 2 + k)
            else (matchD12B cs).map (fun k => 1 + k)
        else none
      match alt1 with
      | some n => some n
      | none => matchD12B (c :: cs)
  else none

/-- Model of `pattern.sub('', text)`: delete every non-overlapping leftmost match,
resuming after each match's end (boundaries are judged on the original
string, so the previous character is carried along). -/
def subPatF (pat : Option Char → List Char → Option Nat) :
    Nat → Option Char → List Char → List Char
  | 0, _, _ => []
  | _ + 1, _, [] => []
  | fuel + 1, prev, c :: cs =>
    match pat prev (c :: cs) with
    | some n =>
      subPatF pat fuel (((c :: cs).take n).getLastD c) ((c :: cs).drop n)
    | none => c :: subPatF pat fuel (some c) cs

def subPat (pat : Option Char → List Char → Option Nat) (l : List Char) : List Char :=
  subPatF pat l.length none l

/-- Python `max(xs, key=len)` (first element of maximal length), made `Option`
to expose the exception it raises on an empty list. -/
def maxByLen : List (List Char) → Option (List Char)
  | [] => none
  | x :: xs => some (xs.foldl (fun cur v => if cur.length < v.length then v else cur) x)

/-- The `cleaned_parts` list built inside `identify_anime_name`: group-bearing
segments removed, then season and episode markers substituted away and the
result stripped (empty strings are KEPT as list elements). -/
def animeCleaned (processed_parts : List (List Char)) (groups : List (List Char)) :
    List (List Char) :=
  (processed_parts.filter
      (fun p => !(groups.any (fun g => substrCI (g.map Char.toLower) p)))).map
    (fun p => stripWs (subPat episodeSubAt (subPat seasonSubAt p)))

/-- Model of `identify_anime_name`: longest cleaned segment, `"UnknownAnime"` when the
cleaned LIST is empty (`if not cleaned_parts`). -/
def identify_anime_name (processed_parts : List (List Char)) (groups : List (List Char)) :
    List Char :=
  match maxByLen (animeCleaned processed_parts groups) with
  | none => str "UnknownAnime"
  | some m => stripWs m

/-- The embedded release-group registry constant from the source. -/
def subtitle_groups : List (List Char) :=
  [str "VCB-Studio", str "Kamigami", str "FANSUB", str "UHA-WINGS", str "ReinForce",
   str "DMG", str "SweetSub", str "Nekomoe kissaten", str "Sakurato", str "Airota",
   str "LPSub", str "KitaujiSub", str "LoliHouse", str "Haruhana", str "KTXP",
   str "Moozzi2", str "THORA", str "Fussoir", str "LittleBakas", str ".subbers project",
   str "Lilith-Raws", str "NC-Raws", str "FLsnow", str "DHR", str "MakariHoshiyume",
   str "TxxZ", str "A.I.R.nesSub", str "B-Global", str "新Sub", str "XKsub",
   str "SumiSora", str "Mabors", str "UCCUSS", str "Skymoon-Raws"]

/-- Model of `os.path.splitext` on a bare file name: split at the last dot unless every
character before that dot is itself a dot. -/
def splitext (name : List Char) : List Char × List Char :=
  let k := (name.reverse.takeWhile (fun c => c ≠ '.')).length
  if k = name.length then (name, [])
  else
    let dotPos := name.length - k - 1
    if (name.take dotPos).all (fun c => c = '.') then (name, [])
    else (name.take dotPos, name.drop dotPos)

/-- The directory-scoped classification record (`cache[file_dir]` value);
note it has no episode field: the episode is never cached. -/
structure AnimeInfo where
  anime_name : List Char
  season : List Char
  subtitle_group : List Char
deriving DecidableEq, Repr

/-- The per-traversal cache (`cache` dict keyed by directory path). -/
abbrev Cache : Type := List (List Char × AnimeInfo)

def cacheLookup : Cache → List Char → Option AnimeInfo
  | [], _ => none
  | (k, v) :: rest, d => if k = d then some v else cacheLookup rest d

def cacheInsert (c : Cache) (k : List Char) (v : AnimeInfo) : Cache := (k, v) :: c

def composeName (an se ep sg ext : List Char) : List Char :=
  an ++ str " - S" ++ se ++ str "E" ++ ep ++ str " - " ++ sg ++ ext

/-- Pure core of `rename_file`: classification, cache use/update, and the
construction of the new file name.  Note the source passes the RAW
`file_name` (base + extension, un-normalised) to `identify_subtitle_group`,
while season/title/episode work on the cleaned extension-stripped base. -/
def rename_core (file_dir file_name : List Char) (groups : List (List Char))
    (cache : Cache) : List Char × Cache :=
  let base_ext := splitext file_name
  let pre := preprocess_filename base_ext.1
  match cacheLookup cache file_dir with
  | some info =>
    (composeName info.anime_name info.season (identify_episode pre.1)
      info.subtitle_group base_ext.2, cache)
  | none =>
    let sg := identify_subtitle_group file_name pre.2.2 groups
    let se := identify_season pre.1
    let an := identify_anime_name pre.2.2 groups
    (composeName an se (identify_episode pre.1) sg base_ext.2,
      cacheInsert cache file_dir ⟨an, se, sg⟩)

/-- Model of `rename_file` with the external `os.rename` modelled as an oracle boolean
`renameOk`: the cache write happens before the `try` block, and the
`except` handler swallows any rename failure, so the call always returns
normally with the already-updated cache whatever the rename outcome. -/
def rename_file_model (file_dir file_name : List Char) (groups : List (List Char))
    (cache : Cache) (renameOk : Bool) : Cache × List Char × Bool :=
  let r := rename_core file_dir file_name groups cache
  (r.2, r.1, renameOk)

/-- No `[8 alphanumerics]` hash occurs anywhere in the string. -/
def noHash : List Char → Bool
  | [] => true
  | c :: cs => !(c = '[' && hashTest cs) && noHash cs

/-- A gap-bracket at this position: a non-empty whitespace run followed by
`]` (i.e. the tail of a `\[\s+\]` occurrence). -/
def gapTest (cs : List Char) : Bool :=
  !(cs.takeWhile isWs).isEmpty && (cs.dropWhile isWs).head? = some ']'

/-- No `[`, whitespace-run, `]` occurrence with a non-empty run anywhere:
on such strings the empty-bracket rewrite is the identity. -/
def noGap : List Char → Bool
  | [] => true
  | c :: cs => (if c = '[' then !(gapTest cs) else true) && noGap cs

/-- No two adjacent whitespace characters: on such strings the whitespace
collapse is the identity. -/
def noWsRun : List Char → Bool
  | [] => true
  | c :: cs => !(isWs c && isWsHead cs) && noWsRun cs

/-!  Theorems. -/

/-- C3 (evaluation at the failing input): on `"S2023"` the season pattern's
`\d+` group captures all four digits and `zfill(2)` does not truncate, so
`identify_season` returns `"2023"`, not a 2-digit string — contradicting the
source's own comment at the `return` (“确保格式为两位数”, ensure two-digit
format) and the spec's `^\d{2}$` contract.  (`identify_episode`, whose digit
groups are `\d{1,2}` with an explicit length guard, is not affected.) -/
theorem identify_season_S2023_four_digits :
    identify_season (str "S2023") = str "2023" ∧
    (identify_season (str "S2023")).length ≠ 2 := by
  decide

/-- C4 (evaluation at the failing input): for the segment list `["01"]` (e.g.
from a file named `01.mkv`) and an empty registry, the single segment strips
to the empty string, but the source's `if not cleaned_parts` tests the LIST,
which still holds one (empty) element — so `identify_anime_name` returns the
empty string instead of the documented `"UnknownAnime"` sentinel. -/
theorem identify_anime_name_empty_on_bare_number :
    identify_anime_name [str "01"] [] = [] ∧
    identify_anime_name [str "01"] [] ≠ str "UnknownAnime" := by
  decide

/-- C2 counterexample: with no registry match, the sub/studio rule returns the
segment STRIPPED of surrounding whitespace (`part.strip()`), not the segment
itself as the claim states: on segment `" asub "` the function returns
`"asub"`. -/
theorem subtitle_group_claim_counterexample :
    identify_subtitle_group (str "zzz") [str " asub "] [] = str "asub" ∧
    str "asub" ≠ str " asub " := by
  decide

/-- C5 counterexample: on a cache miss for `movie.dmg` with registry
`["DMG"]`, the stored (and composed) release group is `"DMG"` — found because
the source passes the RAW full `file_name` (extension included) to
`identify_subtitle_group` — whereas the claim's value, computed from the
cleaned extension-stripped base `"movie"`, is `"movie"`. -/
theorem release_group_raw_name_counterexample :
    (cacheLookup (rename_core (str "d") (str "movie.dmg") [str "DMG"] []).2
        (str "d")).map AnimeInfo.subtitle_group = some (str "DMG") ∧
    identify_subtitle_group (preprocess_filename (splitext (str "movie.dmg")).1).1
        (preprocess_filename (splitext (str "movie.dmg")).1).2.2 [str "DMG"] =
      str "movie" ∧
    str "DMG" ≠ str "movie" := by
  decide

/-- C7 counterexample: cleaning is not idempotent.  Non-overlapping keyword
removal can splice a fresh keyword occurrence: `"wewebb"` cleans to `"web"`
(the first pass removes only the occurrence at offset 2), and a second pass
removes that too, yielding `""`. -/
theorem clean_not_idempotent_counterexample :
    remove_technical_keywords_and_noise
        (remove_technical_keywords_and_noise (str "wewebb")) ≠
      remove_technical_keywords_and_noise (str "wewebb") := by
  decide

/-- C1: `identify_episode` tries its four patterns in strict priority order —
`E(p)?` + 1–2 digits, `第NN话`, the range `NN-NN` (first number only), then a
bare 1–2 digit number — and returns the zero-padded digit group of the first
left-to-right match of the first pattern that matches anywhere in the string,
without trying later patterns or matches; if no pattern matches it returns
`"01"`.  (Every candidate has at most 2 digits — see `classifiers_total` —
so the source's `len(number) <= 2` guard accepts the first match and no
pattern is ever exhausted with a too-long candidate.)  In particular, clause 1
applied regardless of the other patterns shows an `E`/`Ep` marker anywhere in
the string outranks a bare number appearing earlier. -/
theorem episode_cascade_priority (s : List Char) :
    (∀ d, findMatch ep1At none s = some d → identify_episode s = zfill2 d) ∧
    (findMatch ep1At none s = none →
      ∀ d, findMatch ep2At none s = some d → identify_episode s = zfill2 d) ∧
    (findMatch ep1At none s = none → findMatch ep2At none s = none →
      ∀ d, findMatch ep3At none s = some d → identify_episode s = zfill2 d) ∧
    (findMatch ep1At none s = none → findMatch ep2At none s = none →
      findMatch ep3At none s = none →
      ∀ d, findMatch ep4At none s = some d → identify_episode s = zfill2 d) ∧
    (findMatch ep1At none s = none → findMatch ep2At none s = none →
      findMatch ep3At none s = none → findMatch ep4At none s = none →
      identify_episode s = str "01") := by
  refine ⟨?_, ?_, ?_, ?_, ?_⟩ <;> intros <;> simp_all [identify_episode]

/-- Witness for C1: on `"12 E3"` the first pattern's first match has digit
group `"3"`, so the result is `zfill2 "3" = "03"` even though a bare number
appears earlier in the string. -/
theorem episode_cascade_priority_witness :
    findMatch ep1At none (str "12 E3") = some (str "3") ∧
    identify_episode (str "12 E3") = zfill2 (str "3") :=
  ⟨by decide, (episode_cascade_priority (str "12 E3")).1 (str "3") (by decide)⟩

/-- The classification a cache miss computes for file `name`
(title from the cleaned base's segments, season from the cleaned base,
release group from the RAW full file name). -/
def missInfo (name : List Char) (groups : List (List Char)) : AnimeInfo :=
  ⟨identify_anime_name (preprocess_filename (splitext name).1).2.2 groups,
   identify_season (preprocess_filename (splitext name).1).1,
   identify_subtitle_group name (preprocess_filename (splitext name).1).2.2 groups⟩

theorem cacheLookup_insert (c : Cache) (k : List Char) (v : AnimeInfo) :
    cacheLookup (cacheInsert c k v) k = some v := by
  simp [cacheInsert, cacheLookup]

theorem rename_core_miss (dir name : List Char) (groups : List (List Char))
    (cache : Cache) (h : cacheLookup cache dir = none) :
    rename_core dir name groups cache =
      (composeName (missInfo name groups).anime_name (missInfo name groups).season
         (identify_episode (preprocess_filename (splitext name).1).1)
         (missInfo name groups).subtitle_group (splitext name).2,
       cacheInsert cache dir (missInfo name groups)) := by
  unfold rename_core
  simp [h, missInfo]

theorem rename_core_hit (dir name : List Char) (groups : List (List Char))
    (cache : Cache) (info : AnimeInfo) (h : cacheLookup cache dir = some info) :
    rename_core dir name groups cache =
      (composeName info.anime_name info.season
         (identify_episode (preprocess_filename (splitext name).1).1)
         info.subtitle_group (splitext name).2, cache) := by
  unfold rename_core
  simp [h]

/-- C5 (amended): on a cache miss, the release group stored in the cache (and
composed into the new name) is `identify_subtitle_group` applied to the RAW
full file name (base plus extension, not normalised), together with the
segment list obtained by preprocessing the extension-stripped base, and the
registry; title and season are computed from the cleaned base. -/
theorem release_group_from_raw_filename (dir name : List Char)
    (groups : List (List Char)) (cache : Cache)
    (h : cacheLookup cache dir = none) :
    (rename_core dir name groups cache).2 =
      cacheInsert cache dir
        ⟨identify_anime_name (preprocess_filename (splitext name).1).2.2 groups,
         identify_season (preprocess_filename (splitext name).1).1,
         identify_subtitle_group name (preprocess_filename (splitext name).1).2.2 groups⟩ := by
  rw [rename_core_miss dir name groups cache h]
  simp [missInfo]

/-- Witness for C5's amended theorem at concrete inputs. -/
theorem release_group_from_raw_filename_witness :
    cacheLookup ([] : Cache) (str "d") = none ∧
    (rename_core (str "d") (str "a.mkv") [] []).2 =
      cacheInsert [] (str "d")
        ⟨identify_anime_name (preprocess_filename (splitext (str "a.mkv")).1).2.2 [],
         identify_season (preprocess_filename (splitext (str "a.mkv")).1).1,
         identify_subtitle_group (str "a.mkv")
           (preprocess_filename (splitext (str "a.mkv")).1).2.2 []⟩ :=
  ⟨rfl, release_group_from_raw_filename (str "d") (str "a.mkv") [] [] rfl⟩

/-- C6: two successive `rename_file` calls sharing one cache and naming files
in the same directory.  On a miss, the first call computes and stores exactly
{title, season, releaseGroup} under the directory key (the cache record type
`AnimeInfo` has no episode field, so the episode is never stored); the second
call's composed name then uses exactly that cached triple — unaffected by the
second file's own name — while the episode is recomputed from the second
file's own normalised base name, and the cache is left unchanged. -/
theorem cache_reuse_second_call (dir n1 n2 : List Char) (groups : List (List Char))
    (cache : Cache) (h : cacheLookup cache dir = none) :
    (rename_core dir n1 groups cache).2 =
      cacheInsert cache dir
        ⟨identify_anime_name (preprocess_filename (splitext n1).1).2.2 groups,
         identify_season (preprocess_filename (splitext n1).1).1,
         identify_subtitle_group n1 (preprocess_filename (splitext n1).1).2.2 groups⟩ ∧
    cacheLookup (rename_core dir n1 groups cache).2 dir =
      some ⟨identify_anime_name (preprocess_filename (splitext n1).1).2.2 groups,
            identify_season (preprocess_filename (splitext n1).1).1,
            identify_subtitle_group n1 (preprocess_filename (splitext n1).1).2.2 groups⟩ ∧
    rename_core dir n2 groups (rename_core dir n1 groups cache).2 =
      (composeName
         (identify_anime_name (preprocess_filename (splitext n1).1).2.2 groups)
         (identify_season (preprocess_filename (splitext n1).1).1)
         (identify_episode (preprocess_filename (splitext n2).1).1)
         (identify_subtitle_group n1 (preprocess_filename (splitext n1).1).2.2 groups)
         (splitext n2).2,
       (rename_core dir n1 groups cache).2) := by
  have h1 : (rename_core dir n1 groups cache).2 = cacheInsert cache dir (missInfo n1 groups) := by
    rw [rename_core_miss dir n1 groups cache h]
  have h2 : cacheLookup (rename_core dir n1 groups cache).2 dir = some (missInfo n1 groups) := by
    rw [h1, cacheLookup_insert]
  refine ⟨h1, h2, ?_⟩
  rw [rename_core_hit dir n2 groups _ _ h2]
  simp [missInfo]

/-- Witness for C6 at concrete inputs (two files in one directory differing
only in their episode marker, as in the spec's end-to-end example). -/
theorem cache_reuse_second_call_witness :
    cacheLookup ([] : Cache) (str "d") = none ∧
    rename_core (str "d") (str "[DMG] Show - 02.mkv") subtitle_groups
        (rename_core (str "d") (str "[DMG] Show - 01.mkv") subtitle_groups []).2 =
      (composeName
         (identify_anime_name
           (preprocess_filename (splitext (str "[DMG] Show - 01.mkv")).1).2.2 subtitle_groups)
         (identify_season (preprocess_filename (splitext (str "[DMG] Show - 01.mkv")).1).1)
         (identify_episode (preprocess_filename (splitext (str "[DMG] Show - 02.mkv")).1).1)
         (identify_subtitle_group (str "[DMG] Show - 01.mkv")
           (preprocess_filename (splitext (str "[DMG] Show - 01.mkv")).1).2.2 subtitle_groups)
         (splitext (str "[DMG] Show - 02.mkv")).2,
       (rename_core (str "d") (str "[DMG] Show - 01.mkv") subtitle_groups []).2) :=
  ⟨rfl,
   (cache_reuse_second_call (str "d") (str "[DMG] Show - 01.mkv")
     (str "[DMG] Show - 02.mkv") subtitle_groups [] rfl).2.2⟩

/-- C10: the cache write happens before the rename attempt, and the rename is
wrapped in a catch-all handler (modelled by the `renameOk` oracle, which the
resulting cache provably does not depend on).  Hence even when the rename
fails, the directory's cache entry is already populated with the
classification of the failed file, and a later file in the same directory
composes its name from that entry. -/
theorem cache_populated_despite_rename_failure (dir n1 n2 : List Char)
    (groups : List (List Char)) (cache : Cache) (renameOk : Bool)
    (h : cacheLookup cache dir = none) :
    (rename_file_model dir n1 groups cache renameOk).1 =
      cacheInsert cache dir
        ⟨identify_anime_name (preprocess_filename (splitext n1).1).2.2 groups,
         identify_season (preprocess_filename (splitext n1).1).1,
         identify_subtitle_group n1 (preprocess_filename (splitext n1).1).2.2 groups⟩ ∧
    (rename_file_model dir n1 groups cache renameOk).1 =
      (rename_file_model dir n1 groups cache true).1 ∧
    (rename_core dir n2 groups (rename_file_model dir n1 groups cache renameOk).1).1 =
      composeName
        (identify_anime_name (preprocess_filename (splitext n1).1).2.2 groups)
        (identify_season (preprocess_filename (splitext n1).1).1)
        (identify_episode (preprocess_filename (splitext n2).1).1)
        (identify_subtitle_group n1 (preprocess_filename (splitext n1).1).2.2 groups)
        (splitext n2).2 := by
  have h1 : (rename_file_model dir n1 groups cache renameOk).1 =
      cacheInsert cache dir (missInfo n1 groups) := by
    show (rename_core dir n1 groups cache).2 = _
    rw [rename_core_miss dir n1 groups cache h]
  refine ⟨h1, rfl, ?_⟩
  show (rename_core dir n2 groups (rename_file_model dir n1 groups cache renameOk).1).1 = _
  rw [h1, rename_core_hit dir n2 groups _ _ (cacheLookup_insert cache dir (missInfo n1 groups))]
  simp [missInfo]

/-- Witness for C10 at concrete inputs: the first file's rename fails
(`renameOk = false`), yet a later file in the same directory composes from the
failed file's cached classification. -/
theorem cache_populated_despite_rename_failure_witness :
    cacheLookup ([] : Cache) (str "d") = none ∧
    (rename_core (str "d") (str "[DMG] Show - 02.mkv") subtitle_groups
        (rename_file_model (str "d") (str "[DMG] Show - 01.mkv") subtitle_groups
          [] false).1).1 =
      composeName
        (identify_anime_name
          (preprocess_filename (splitext (str "[DMG] Show - 01.mkv")).1).2.2
          subtitle_groups)
        (identify_season (preprocess_filename (splitext (str "[DMG] Show - 01.mkv")).1).1)
        (identify_episode (preprocess_filename (splitext (str "[DMG] Show - 02.mkv")).1).1)
        (identify_subtitle_group (str "[DMG] Show - 01.mkv")
          (preprocess_filename (splitext (str "[DMG] Show - 01.mkv")).1).2.2
          subtitle_groups)
        (splitext (str "[DMG] Show - 02.mkv")).2 :=
  ⟨rfl,
   (cache_populated_despite_rename_failure (str "d") (str "[DMG] Show - 01.mkv")
     (str "[DMG] Show - 02.mkv") subtitle_groups [] false rfl).2.2⟩

/-- C2 (amended): `identify_subtitle_group` resolves in cascade order — if at
least one registry entry is a case-insensitive substring of the filename, the
matching entries joined with `'&'` in registry iteration order (a single match
verbatim in registry casing, since joining a one-element list is the element
itself); otherwise the first segment case-insensitively containing `sub` or
`studio`, returned STRIPPED of surrounding whitespace; otherwise the first
segment when the segment list is non-empty; otherwise `"UNKnownSub"`.  The
first applicable rule wins even when its result is empty (e.g. an empty
registry entry matches every filename and is returned as the empty string). -/
theorem subtitle_group_resolution (fn : List Char) (parts groups : List (List Char)) :
    (groups.filter (fun g => substrCI (g.map Char.toLower) fn) ≠ [] →
      identify_subtitle_group fn parts groups =
        List.intercalate ['&'] (groups.filter (fun g => substrCI (g.map Char.toLower) fn))) ∧
    (groups.filter (fun g => substrCI (g.map Char.toLower) fn) = [] →
      ∀ p, parts.find? hasSubStudio = some p →
        identify_subtitle_group fn parts groups = stripWs p) ∧
    (groups.filter (fun g => substrCI (g.map Char.toLower) fn) = [] →
      parts.find? hasSubStudio = none → ∀ p ps, parts = p :: ps →
        identify_subtitle_group fn parts groups = p) ∧
    (groups.filter (fun g => substrCI (g.map Char.toLower) fn) = [] →
      parts.find? hasSubStudio = none → parts = [] →
      identify_subtitle_group fn parts groups = str "UNKnownSub") := by
  unfold identify_subtitle_group
  cases hm : groups.filter (fun g => substrCI (g.map Char.toLower) fn) with
  | nil =>
    refine ⟨fun hne => absurd rfl hne, fun _ p hp => ?_, fun _ hf p ps hp => ?_,
      fun _ hf hp => ?_⟩
    · simp [hp]
    · subst hp
      simp [hf]
    · subst hp
      simp [hf]
  | cons g gs =>
    cases gs with
    | nil =>
      refine ⟨fun _ => ?_, fun he => by simp at he, fun he => by simp at he,
        fun he => by simp at he⟩
      simp [hm, List.intercalate, List.intersperse]
    | cons g2 gs2 =>
      refine ⟨fun _ => ?_, fun he => by simp at he, fun he => by simp at he,
        fun he => by simp at he⟩
      simp [hm]

/-- Witness for C2's amended theorem: a single registry match is returned
verbatim, by rule 1. -/
theorem subtitle_group_resolution_witness :
    [str "DMG"].filter
        (fun g => substrCI (g.map Char.toLower) (str "[DMG] Show")) ≠ [] ∧
    identify_subtitle_group (str "[DMG] Show") [str "x"] [str "DMG"] =
      List.intercalate ['&']
        ([str "DMG"].filter
          (fun g => substrCI (g.map Char.toLower) (str "[DMG] Show"))) :=
  ⟨by decide,
   (subtitle_group_resolution (str "[DMG] Show") [str "x"] [str "DMG"]).1 (by decide)⟩

theorem take2d_spec {l : List Char} (h : headDigit l = true) :
    take2d l ≠ [] ∧ (take2d l).length ≤ 2 := by
  refine ⟨?_, ?_⟩
  · cases l with
    | nil => simp [headDigit] at h
    | cons c cs =>
      simp [headDigit] at h
      simp [take2d, List.takeWhile_cons, h]
  · simp [take2d, List.length_take]

theorem matchD12B_spec {l : List Char} {k : Nat} (h : matchD12B l = some k) :
    (k = 1 ∨ k = 2) ∧ k ≤ l.length := by
  cases l with
  | nil => simp [matchD12B] at h
  | cons d1 t =>
    cases t with
    | nil =>
      simp only [matchD12B] at h
      split_ifs at h
      injection h with h2
      subst h2
      exact ⟨by omega, by simp⟩
    | cons d2 t2 =>
      simp only [matchD12B] at h
      split_ifs at h <;>
        first
        | exact Option.noConfusion h
        | (injection h with h2; subst h2;
           exact ⟨by omega, by simp only [List.length_cons]; omega⟩)

theorem findMatch_pres {α : Type} {pat : Option Char → List Char → Option α}
    {P : α → Prop} (hp : ∀ prev l d, pat prev l = some d → P d) :
    ∀ prev l d, findMatch pat prev l = some d → P d := by
  intro prev l
  induction l generalizing prev with
  | nil => exact fun d h => hp _ _ _ h
  | cons c cs ih =>
    intro d h
    unfold findMatch at h
    cases he : pat prev (c :: cs) with
    | some r =>
      simp only [he] at h
      injection h with h2
      exact h2 ▸ hp _ _ _ he
    | none =>
      simp only [he] at h
      exact ih _ _ h

theorem ep1At_spec {prev : Option Char} {l d : List Char}
    (h : ep1At prev l = some d) : d ≠ [] ∧ d.length ≤ 2 := by
  rcases l with _ | ⟨c, _ | ⟨p, rest⟩⟩
  · simp [ep1At] at h
  · simp [ep1At] at h
  · simp only [ep1At] at h
    split_ifs at h with h1 h2 h3 h4 <;>
      first
      | exact Option.noConfusion h
      | (injection h with h5; subst h5; exact take2d_spec (by assumption))

theorem ep2At_spec {prev : Option Char} {l d : List Char}
    (h : ep2At prev l = some d) : d ≠ [] ∧ d.length ≤ 2 := by
  rcases l with _ | ⟨c, _ | ⟨d1, _ | ⟨d2, rest⟩⟩⟩
  · simp [ep2At] at h
  · simp [ep2At] at h
  · simp [ep2At] at h
  · rcases rest with _ | ⟨x, t⟩ <;>
      simp only [ep2At] at h <;>
      split_ifs at h <;>
      first
      | exact Option.noConfusion h
      | (injection h with h5; subst h5; exact ⟨by simp, by simp⟩)

theorem ep3At_spec {prev : Option Char} {l d : List Char}
    (h : ep3At prev l = some d) : d ≠ [] ∧ d.length ≤ 2 := by
  rcases l with _ | ⟨d1, _ | ⟨d2, r2⟩⟩
  · simp [ep3At] at h
  · simp [ep3At] at h
  · rcases r2 with _ | ⟨x, r3⟩ <;>
      simp only [ep3At] at h <;>
      split_ifs at h <;>
      first
      | exact Option.noConfusion h
      | (injection h with h5; subst h5; exact ⟨by simp, by simp⟩)

theorem ep4At_spec {prev : Option Char} {l d : List Char}
    (h : ep4At prev l = some d) : d ≠ [] ∧ d.length ≤ 2 := by
  unfold ep4At at h
  split_ifs at h
  · cases hk : matchD12B l with
    | none => rw [hk] at h; exact Option.noConfusion h
    | some k =>
      rw [hk] at h
      simp only [Option.map_some'] at h
      injection h with h5
      obtain ⟨h12, hlen⟩ := matchD12B_spec hk
      subst h5
      constructor
      · cases l with
        | nil => simp at hlen; omega
        | cons c cs =>
          cases h12 with
          | inl h1 => subst h1; simp
          | inr h2 => subst h2; simp
      · simp only [List.length_take]
        omega

theorem seasonAt_spec {prev : Option Char} {l d : List Char}
    (h : seasonAt prev l = some d) : d ≠ [] := by
  rcases l with _ | ⟨c, cs⟩
  · simp [seasonAt] at h
  · simp only [seasonAt] at h
    split_ifs at h with h1 h2 h3 h4 h5 <;>
      first
      | exact Option.noConfusion h
      | (injection h with h6; subst h6; simp_all)

/-- C8: the classification functions are total.  In this embedding every
function is a total Lean function by construction; the two partiality points
the claim singles out are proved well-defined here: (i) the `max` over
segments in `identify_anime_name` is applied only under the emptiness guard,
and is defined (`isSome`) whenever the guard passes; (ii) every match of
every pattern in `identify_episode`'s cascade (and in `identify_season`)
yields a defined, non-empty numeric group — of at most 2 digits for the
episode patterns, so the source's `len(number) <= 2` check also never falls
through to an undefined state. -/
theorem classifiers_total (parts groups : List (List Char)) (s : List Char) :
    (animeCleaned parts groups ≠ [] →
      (maxByLen (animeCleaned parts groups)).isSome = true) ∧
    (∀ d, findMatch ep1At none s = some d → d ≠ [] ∧ d.length ≤ 2) ∧
    (∀ d, findMatch ep2At none s = some d → d ≠ [] ∧ d.length ≤ 2) ∧
    (∀ d, findMatch ep3At none s = some d → d ≠ [] ∧ d.length ≤ 2) ∧
    (∀ d, findMatch ep4At none s = some d → d ≠ [] ∧ d.length ≤ 2) ∧
    (∀ d, findMatch seasonAt none s = some d → d ≠ []) := by
  refine ⟨?_, ?_, ?_, ?_, ?_, ?_⟩
  · intro h
    cases hc : animeCleaned parts groups with
    | nil => exact absurd hc h
    | cons x xs => simp [maxByLen]
  · exact fun d => findMatch_pres (fun _ _ _ hh => ep1At_spec hh) none s d
  · exact fun d => findMatch_pres (fun _ _ _ hh => ep2At_spec hh) none s d
  · exact fun d => findMatch_pres (fun _ _ _ hh => ep3At_spec hh) none s d
  · exact fun d => findMatch_pres (fun _ _ _ hh => ep4At_spec hh) none s d
  · exact fun d => findMatch_pres (fun _ _ _ hh => seasonAt_spec hh) none s d

/-- Witness for C8 at concrete inputs. -/
theorem classifiers_total_witness :
    animeCleaned [str "ab"] [] ≠ [] ∧
    (maxByLen (animeCleaned [str "ab"] [])).isSome = true ∧
    findMatch ep1At none (str "E5") = some (str "5") ∧
    (str "5" ≠ [] ∧ (str "5").length ≤ 2) :=
  ⟨by decide, (classifiers_total [str "ab"] [] (str "E5")).1 (by decide), by decide,
   (classifiers_total [str "ab"] [] (str "E5")).2.1 (str "5") (by decide)⟩

theorem dropWhileWs_len (l : List Char) : (l.dropWhile isWs).length ≤ l.length := by
  induction l with
  | nil => simp
  | cons c cs ih =>
    by_cases h : isWs c = true
    · simp only [List.dropWhile_cons, h, if_true, List.length_cons]
      omega
    · simp [List.dropWhile_cons, h]

theorem removeHashF_len (fuel : Nat) : ∀ l : List Char, (removeHashF fuel l).length ≤ l.length := by
  induction fuel with
  | zero => intro l; simp [removeHashF]
  | succ n ih =>
    intro l
    cases l with
    | nil => simp [removeHashF]
    | cons c cs =>
      unfold removeHashF
      split_ifs with h
      · have h1 := ih (cs.drop 9)
        have h2 : (cs.drop 9).length ≤ cs.length := by
          simp [List.length_drop]
        simp only [List.length_cons]
        omega
      · simp only [List.length_cons]
        exact Nat.succ_le_succ (ih cs)

theorem removeAllCIF_len (k₀ : Char) (ks : List Char) (fuel : Nat) :
    ∀ l : List Char, (removeAllCIF k₀ ks fuel l).length ≤ l.length := by
  induction fuel with
  | zero => intro l; simp [removeAllCIF]
  | succ n ih =>
    intro l
    cases l with
    | nil => simp [removeAllCIF]
    | cons c cs =>
      unfold removeAllCIF
      split_ifs with h
      · have h1 := ih (cs.drop ks.length)
        have h2 : (cs.drop ks.length).length ≤ cs.length := by
          simp [List.length_drop]
        simp only [List.length_cons]
        omega
      · simp only [List.length_cons]
        exact Nat.succ_le_succ (ih cs)

theorem removeOneKw_len (l k : List Char) : (removeOneKw l k).length ≤ l.length := by
  cases k with
  | nil => simp [removeOneKw]
  | cons k₀ ks => exact removeAllCIF_len k₀ ks l.length l

theorem removeKeywords_len (l : List Char) : (removeKeywords l).length ≤ l.length := by
  have hgen : ∀ (ks : List (List Char)) (t : List Char),
      (ks.foldl removeOneKw t).length ≤ t.length := by
    intro ks
    induction ks with
    | nil => intro t; simp
    | cons k ks ih =>
      intro t
      simp only [List.foldl_cons]
      exact le_trans (ih (removeOneKw t k)) (removeOneKw_len t k)
  exact hgen technical_keywords l

theorem emptyBrF_len (fuel : Nat) : ∀ l : List Char, (emptyBrF fuel l).length ≤ l.length := by
  induction fuel with
  | zero => intro l; simp [emptyBrF]
  | succ n ih =>
    intro l
    cases l with
    | nil => simp [emptyBrF]
    | cons c cs =>
      unfold emptyBrF
      split_ifs with h
      · have h1 := ih (cs.dropWhile isWs).tail
        have h2 : (cs.dropWhile isWs).length ≤ cs.length := dropWhileWs_len cs
        have h3 : cs.dropWhile isWs ≠ [] := by
          intro he
          simp only [he] at h
          simp at h
        have h4 : 1 ≤ (cs.dropWhile isWs).length := by
          cases hde : cs.dropWhile isWs with
          | nil => exact absurd hde h3
          | cons a b => simp
        have h5 : (cs.dropWhile isWs).tail.length = (cs.dropWhile isWs).length - 1 := by
          simp [List.length_tail]
        simp only [List.length_cons]
        omega
      · simp only [List.length_cons]
        exact Nat.succ_le_succ (ih cs)

theorem collapseWsF_len (fuel : Nat) : ∀ l : List Char, (collapseWsF fuel l).length ≤ l.length := by
  induction fuel with
  | zero => intro l; simp [collapseWsF]
  | succ n ih =>
    intro l
    cases l with
    | nil => simp [collapseWsF]
    | cons c cs =>
      unfold collapseWsF
      split_ifs with h
      · have h1 := ih (cs.dropWhile isWs)
        have h2 : (cs.dropWhile isWs).length ≤ cs.length := dropWhileWs_len cs
        simp only [List.length_cons]
        omega
      · simp only [List.length_cons]
        exact Nat.succ_le_succ (ih cs)

theorem dropTrailWs_len (l : List Char) : (dropTrailWs l).length ≤ l.length := by
  induction l with
  | nil => simp [dropTrailWs]
  | cons c cs ih =>
    unfold dropTrailWs
    split_ifs with h
    · simp
    · simp only [List.length_cons]
      exact Nat.succ_le_succ ih

theorem stripWs_len (l : List Char) : (stripWs l).length ≤ l.length :=
  le_trans (dropTrailWs_len (l.dropWhile isWs)) (dropWhileWs_len l)

theorem removeHash_len (l : List Char) : (removeHash l).length ≤ l.length :=
  removeHashF_len l.length l

theorem emptyBr_len (l : List Char) : (emptyBr l).length ≤ l.length :=
  emptyBrF_len l.length l

theorem collapseWs_len (l : List Char) : (collapseWs l).length ≤ l.length :=
  collapseWsF_len l.length l

theorem preprocess_fst (s : List Char) :
    (preprocess_filename s).1 = remove_technical_keywords_and_noise s := by
  simp [preprocess_filename]

/-- C9: the cleaned filename — the first component of `preprocess_filename` —
is never longer than the input: each normalisation step only removes
characters, rewrites a bracket pair of length ≥ 2 to the 2-character `[]`
marker, collapses whitespace runs to a single space, or trims. -/
theorem clean_length_le (s : List Char) :
    ((preprocess_filename s).1).length ≤ s.length ∧
    (remove_technical_keywords_and_noise s).length ≤ s.length := by
  have h : (remove_technical_keywords_and_noise s).length ≤ s.length := by
    show (stripWs (collapseWs (emptyBr (removeKeywords (removeHash s))))).length ≤ s.length
    exact le_trans (stripWs_len _) (le_trans (collapseWs_len _) (le_trans (emptyBr_len _)
      (le_trans (removeKeywords_len _) (removeHash_len _))))
  refine ⟨?_, h⟩
  rw [preprocess_fst]
  exact h

theorem emptyBrF_congr : ∀ (f g : Nat) (l : List Char),
    l.length ≤ f → l.length ≤ g → emptyBrF f l = emptyBrF g l := by
  intro f
  induction f with
  | zero =>
    intro g l hf _
    have : l = [] := List.length_eq_zero.mp (Nat.le_zero.mp hf)
    subst this
    cases g <;> simp [emptyBrF]
  | succ n ih =>
    intro g l hf hg
    cases l with
    | nil => cases g <;> simp [emptyBrF]
    | cons c cs =>
      cases g with
      | zero => simp at hg
      | succ m =>
        simp only [List.length_cons, Nat.succ_le_succ_iff] at hf hg
        unfold emptyBrF
        split_ifs with h
        · have h3 : (cs.dropWhile isWs).tail.length ≤ cs.length := by
            have := dropWhileWs_len cs
            simp only [List.length_tail]
            omega
          rw [ih m _ (le_trans h3 hf) (le_trans h3 hg)]
        · rw [ih m cs (le_trans hf (le_refl n)) (le_trans hg (le_refl m))]

theorem emptyBrF_eq (f : Nat) (l : List Char) (h : l.length ≤ f) :
    emptyBrF f l = emptyBr l :=
  emptyBrF_congr f l.length l h le_rfl

theorem emptyBr_cons (c : Char) (cs : List Char) :
    emptyBr (c :: cs) =
      if c = '[' ∧ (cs.dropWhile isWs).head? = some ']' then
        '[' :: ']' :: emptyBr (cs.dropWhile isWs).tail
      else c :: emptyBr cs := by
  have h3 : (cs.dropWhile isWs).tail.length ≤ cs.length := by
    have := dropWhileWs_len cs
    simp only [List.length_tail]
    omega
  by_cases h : c = '[' ∧ (cs.dropWhile isWs).head? = some ']'
  · rw [if_pos h]
    show emptyBrF (cs.length + 1) (c :: cs) = _
    unfold emptyBrF
    rw [if_pos (by simp [h.1, h.2])]
    rw [emptyBrF_eq _ _ h3]
  · rw [if_neg h]
    show emptyBrF (cs.length + 1) (c :: cs) = _
    unfold emptyBrF
    rw [if_neg (by simpa using h)]
    rfl

theorem collapseWsF_congr : ∀ (f g : Nat) (l : List Char),
    l.length ≤ f → l.length ≤ g → collapseWsF f l = collapseWsF g l := by
  intro f
  induction f with
  | zero =>
    intro g l hf _
    have : l = [] := List.length_eq_zero.mp (Nat.le_zero.mp hf)
    subst this
    cases g <;> simp [collapseWsF]
  | succ n ih =>
    intro g l hf hg
    cases l with
    | nil => cases g <;> simp [collapseWsF]
    | cons c cs =>
      cases g with
      | zero => simp at hg
      | succ m =>
        simp only [List.length_cons, Nat.succ_le_succ_iff] at hf hg
        unfold collapseWsF
        split_ifs with h
        · have h3 : (cs.dropWhile isWs).length ≤ cs.length := dropWhileWs_len cs
          rw [ih m _ (le_trans h3 hf) (le_trans h3 hg)]
        · rw [ih m cs hf hg]

theorem collapseWsF_eq (f : Nat) (l : List Char) (h : l.length ≤ f) :
    collapseWsF f l = collapseWs l :=
  collapseWsF_congr f l.length l h le_rfl

theorem collapseWs_cons (c : Char) (cs : List Char) :
    collapseWs (c :: cs) =
      if isWs c = true ∧ isWsHead cs = true then ' ' :: collapseWs (cs.dropWhile isWs)
      else c :: collapseWs cs := by
  have h3 : (cs.dropWhile isWs).length ≤ cs.length := dropWhileWs_len cs
  by_cases h : isWs c = true ∧ isWsHead cs = true
  · rw [if_pos h]
    show collapseWsF (cs.length + 1) (c :: cs) = _
    unfold collapseWsF
    rw [if_pos (by simp [h.1, h.2])]
    rw [collapseWsF_eq _ _ h3]
  · rw [if_neg h]
    show collapseWsF (cs.length + 1) (c :: cs) = _
    unfold collapseWsF
    rw [if_neg (by simpa using h)]
    rfl

theorem substrCI_nil (l : List Char) : substrCI [] l = true := by
  cases l <;> simp [substrCI, startsWithCI, List.isEmpty]

theorem removeHashF_fix : ∀ (fuel : Nat) (l : List Char), l.length ≤ fuel →
    noHash l = true → removeHashF fuel l = l := by
  intro fuel
  induction fuel with
  | zero =>
    intro l hf _
    have : l = [] := List.length_eq_zero.mp (Nat.le_zero.mp hf)
    subst this
    simp [removeHashF]
  | succ n ih =>
    intro l hf hn
    cases l with
    | nil => simp [removeHashF]
    | cons c cs =>
      simp only [noHash, Bool.and_eq_true, Bool.not_eq_true'] at hn
      unfold removeHashF
      rw [if_neg (by simp [hn.1])]
      simp only [List.length_cons, Nat.succ_le_succ_iff] at hf
      rw [ih cs hf hn.2]

theorem removeAllCIF_fix : ∀ (k₀ : Char) (ks : List Char) (fuel : Nat) (l : List Char),
    l.length ≤ fuel → substrCI (k₀ :: ks) l = false → removeAllCIF k₀ ks fuel l = l := by
  intro k₀ ks fuel
  induction fuel with
  | zero =>
    intro l hf _
    have : l = [] := List.length_eq_zero.mp (Nat.le_zero.mp hf)
    subst this
    simp [removeAllCIF]
  | succ n ih =>
    intro l hf hs
    cases l with
    | nil => simp [removeAllCIF]
    | cons c cs =>
      simp only [substrCI, startsWithCI, Bool.or_eq_false_iff, Bool.and_eq_false_iff] at hs
      unfold removeAllCIF
      rw [if_neg ?_]
      · simp only [List.length_cons, Nat.succ_le_succ_iff] at hf
        rw [ih cs hf ?_]
        · simp [substrCI, hs.2]
      · intro hcond
        simp only [Bool.and_eq_true] at hcond
        rcases hs.1 with h1 | h1
        · rw [hcond.1] at h1
          simp at h1
        · rw [hcond.2] at h1
          simp at h1

theorem removeKeywords_fix (l : List Char)
    (h : ∀ k ∈ technical_keywords, substrCI k l = false) :
    removeKeywords l = l := by
  have hgen : ∀ (ks : List (List Char)), (∀ k ∈ ks, substrCI k l = false) →
      ks.foldl removeOneKw l = l := by
    intro ks
    induction ks with
    | nil => intro _; simp
    | cons k ks ih =>
      intro hk
      have hk1 : substrCI k l = false := hk k (List.mem_cons_self k ks)
      have hone : removeOneKw l k = l := by
        cases k with
        | nil => rw [substrCI_nil] at hk1; simp at hk1
        | cons k₀ kt => exact removeAllCIF_fix k₀ kt l.length l le_rfl hk1
      simp only [List.foldl_cons, hone]
      exact ih (fun k2 hk2 => hk k2 (List.mem_cons_of_mem k hk2))
  exact hgen technical_keywords h

theorem takeWhile_all (p : Char → Bool) : ∀ l : List Char, (l.takeWhile p).all p = true := by
  intro l
  induction l with
  | nil => rfl
  | cons c cs ih =>
    rw [List.takeWhile_cons]
    split_ifs with h
    · simp [h, ih]
    · rfl

theorem dropWhile_ws_append : ∀ (w t : List Char), w.all isWs = true →
    (w ++ t).dropWhile isWs = t.dropWhile isWs := by
  intro w
  induction w with
  | nil => intro t _; rfl
  | cons c w ih =>
    intro t hall
    simp only [List.all_cons, Bool.and_eq_true] at hall
    rw [List.cons_append, List.dropWhile_cons, if_pos hall.1]
    exact ih t hall.2

theorem dw_head_not {p : Char → Bool} : ∀ {l : List Char} {h : Char},
    (l.dropWhile p).head? = some h → p h = false := by
  intro l
  induction l with
  | nil => intro h hh; simp at hh
  | cons c cs ih =>
    intro h hh
    rw [List.dropWhile_cons] at hh
    split_ifs at hh with hp
    · exact ih hh
    · simp only [List.head?_cons, Option.some.injEq] at hh
      subst hh
      simpa using hp

theorem dropWhile_of_head_not {p : Char → Bool} {l : List Char}
    (h : ∀ c, l.head? = some c → p c = false) : l.dropWhile p = l := by
  cases l with
  | nil => rfl
  | cons c cs =>
    rw [List.dropWhile_cons, if_neg]
    simp [h c rfl]

theorem emptyBr_head : ∀ l : List Char, (emptyBr l).head? = l.head? := by
  intro l
  cases l with
  | nil => rfl
  | cons c cs =>
    rw [emptyBr_cons]
    split_ifs with h
    · simp [h.1]
    · simp

theorem emptyBr_ws_front : ∀ (w rest : List Char), w.all isWs = true →
    emptyBr (w ++ rest) = w ++ emptyBr rest := by
  intro w
  induction w with
  | nil => intro rest _; rfl
  | cons c w ih =>
    intro rest hall
    simp only [List.all_cons, Bool.and_eq_true] at hall
    have hcne : ¬(c = '[') := by
      intro he
      rw [he] at hall
      have : isWs '[' = false := by decide
      rw [this] at hall
      exact absurd hall.1 (by simp)
    rw [List.cons_append, emptyBr_cons, if_neg (fun hx => hcne hx.1), ih rest hall.2]
    rfl

theorem noGap_tail {c : Char} {cs : List Char} (h : noGap (c :: cs) = true) :
    noGap cs = true := by
  simp only [noGap, Bool.and_eq_true] at h
  exact h.2

theorem noGap_dropWhile (p : Char → Bool) : ∀ l : List Char,
    noGap l = true → noGap (l.dropWhile p) = true := by
  intro l
  induction l with
  | nil => exact fun h => h
  | cons c cs ih =>
    intro h
    rw [List.dropWhile_cons]
    split_ifs with hp
    · exact ih (noGap_tail h)
    · exact h

theorem gapTest_emptyBr (x : List Char)
    (hx : ¬ ((x.dropWhile isWs).head? = some ']')) : gapTest (emptyBr x) = false := by
  have hall : (x.takeWhile isWs).all isWs = true := takeWhile_all isWs x
  have h1 : emptyBr x = x.takeWhile isWs ++ emptyBr (x.dropWhile isWs) := by
    conv_lhs => rw [← List.takeWhile_append_dropWhile (p := isWs) (l := x)]
    exact emptyBr_ws_front _ _ hall
  unfold gapTest
  rw [h1, dropWhile_ws_append _ _ hall]
  cases hre : x.dropWhile isWs with
  | nil =>
    have he : emptyBr ([] : List Char) = [] := rfl
    rw [he]
    simp
  | cons a as =>
    have ha : isWs a = false := dw_head_not (by rw [hre]; rfl)
    have h2 : (emptyBr (a :: as)).head? = some a := by rw [emptyBr_head]; rfl
    have h3 : (emptyBr (a :: as)).dropWhile isWs = emptyBr (a :: as) :=
      dropWhile_of_head_not (by intro c hc; rw [h2] at hc; cases hc; exact ha)
    rw [h3, h2]
    have ha2 : ¬(a = ']') := by
      intro he
      rw [hre, he] at hx
      exact hx rfl
    simp [ha2]

theorem noGap_emptyBr (l : List Char) : noGap (emptyBr l) = true := by
  have H : ∀ (n : Nat) (x : List Char), x.length ≤ n → noGap (emptyBr x) = true := by
    intro n
    induction n with
    | zero =>
      intro x hx
      have : x = [] := List.length_eq_zero.mp (Nat.le_zero.mp hx)
      subst this
      rfl
    | succ n ih =>
      intro x hx
      cases x with
      | nil => rfl
      | cons c cs =>
        simp only [List.length_cons, Nat.succ_le_succ_iff] at hx
        rw [emptyBr_cons]
        split_ifs with h
        · have htl : (cs.dropWhile isWs).tail.length ≤ n := by
            have := dropWhileWs_len cs
            simp only [List.length_tail]
            omega
          have hE := ih _ htl
          have hg1 : gapTest (']' :: emptyBr (cs.dropWhile isWs).tail) = false := by
            unfold gapTest
            rw [List.takeWhile_cons, if_neg (by decide)]
            simp
          simp only [noGap, Bool.and_eq_true]
          exact ⟨by simp [hg1], by simp, hE⟩
        · have hE := ih cs hx
          simp only [noGap, Bool.and_eq_true]
          refine ⟨?_, hE⟩
          split_ifs with hc
          · subst hc
            have hhx : ¬ ((cs.dropWhile isWs).head? = some ']') := fun hh => h ⟨rfl, hh⟩
            simp [gapTest_emptyBr cs hhx]
          · rfl
  exact H l.length l le_rfl

theorem takeWhile_nil_dropWhile {p : Char → Bool} {l : List Char}
    (h : l.takeWhile p = []) : l.dropWhile p = l := by
  cases l with
  | nil => rfl
  | cons c cs =>
    rw [List.takeWhile_cons] at h
    rw [List.dropWhile_cons]
    split_ifs at h ⊢ with hp
    all_goals simp_all

theorem emptyBr_fix (l : List Char) (hng : noGap l = true) : emptyBr l = l := by
  have H : ∀ (n : Nat) (x : List Char), x.length ≤ n → noGap x = true → emptyBr x = x := by
    intro n
    induction n with
    | zero =>
      intro x hx _
      have : x = [] := List.length_eq_zero.mp (Nat.le_zero.mp hx)
      subst this
      rfl
    | succ n ih =>
      intro x hx hg
      cases x with
      | nil => rfl
      | cons c cs =>
        simp only [List.length_cons, Nat.succ_le_succ_iff] at hx
        rw [emptyBr_cons]
        split_ifs with h
        · have hgc : gapTest cs = false := by
            simp only [noGap, Bool.and_eq_true] at hg
            have := hg.1
            rw [if_pos h.1] at this
            simpa using this
          have htw : cs.takeWhile isWs = [] := by
            unfold gapTest at hgc
            rcases Bool.and_eq_false_iff.mp hgc with h5 | h5
            · simpa using h5
            · exfalso
              rw [h.2] at h5
              simp at h5
          have hdw : cs.dropWhile isWs = cs := takeWhile_nil_dropWhile htw
          rw [hdw] at h ⊢
          cases cs with
          | nil => simp at h
          | cons a as =>
            have ha : a = ']' := by
              have := h.2
              simpa using this
            subst ha
            have has : emptyBr as = as := by
              refine ih as ?_ ?_
              · simp only [List.length_cons] at hx
                omega
              · exact noGap_tail (noGap_tail hg)
            simp [h.1, has]
        · rw [ih cs hx (noGap_tail hg)]
  exact H l.length l le_rfl hng

theorem isWsHead_takeWhile (l : List Char) : (l.takeWhile isWs).isEmpty = !isWsHead l := by
  cases l with
  | nil => rfl
  | cons c cs =>
    rw [List.takeWhile_cons]
    split_ifs with h <;> simp_all [isWsHead]

theorem dropWhile_dropWhile (l : List Char) :
    (l.dropWhile isWs).dropWhile isWs = l.dropWhile isWs :=
  dropWhile_of_head_not (fun _ hc => dw_head_not hc)

theorem isWsHead_dropWhile (l : List Char) : isWsHead (l.dropWhile isWs) = false := by
  cases hre : l.dropWhile isWs with
  | nil => rfl
  | cons a as =>
    have : isWs a = false := dw_head_not (by rw [hre]; rfl)
    simp [isWsHead, this]

theorem noWsRun_tail {c : Char} {cs : List Char} (h : noWsRun (c :: cs) = true) :
    noWsRun cs = true := by
  simp only [noWsRun, Bool.and_eq_true] at h
  exact h.2

theorem collapse_head_ws (l : List Char) : isWsHead (collapseWs l) = isWsHead l := by
  cases l with
  | nil => rfl
  | cons c cs =>
    rw [collapseWs_cons]
    split_ifs with h
    · show isWs ' ' = isWs c
      rw [h.1]
      decide
    · rfl

theorem collapse_dw_head (l : List Char) :
    ((collapseWs l).dropWhile isWs).head? = (l.dropWhile isWs).head? := by
  have H : ∀ (n : Nat) (x : List Char), x.length ≤ n →
      ((collapseWs x).dropWhile isWs).head? = (x.dropWhile isWs).head? := by
    intro n
    induction n with
    | zero =>
      intro x hx
      have : x = [] := List.length_eq_zero.mp (Nat.le_zero.mp hx)
      subst this
      rfl
    | succ n ih =>
      intro x hx
      cases x with
      | nil => rfl
      | cons c cs =>
        simp only [List.length_cons, Nat.succ_le_succ_iff] at hx
        rw [collapseWs_cons]
        split_ifs with h
        · have hr : (cs.dropWhile isWs).length ≤ n := le_trans (dropWhileWs_len cs) hx
          rw [List.dropWhile_cons, if_pos (by decide)]
          rw [ih _ hr, dropWhile_dropWhile]
          rw [List.dropWhile_cons, if_pos h.1]
        · by_cases hc : isWs c = true
          · rw [List.dropWhile_cons, if_pos hc, List.dropWhile_cons, if_pos hc]
            exact ih cs hx
          · rw [List.dropWhile_cons, if_neg hc, List.dropWhile_cons, if_neg hc]
            rfl
  exact H l.length l le_rfl

theorem gapTest_collapse (l : List Char) : gapTest (collapseWs l) = gapTest l := by
  unfold gapTest
  rw [collapse_dw_head, isWsHead_takeWhile, isWsHead_takeWhile, collapse_head_ws]

theorem noGap_collapse (l : List Char) (hg : noGap l = true) :
    noGap (collapseWs l) = true := by
  have H : ∀ (n : Nat) (x : List Char), x.length ≤ n → noGap x = true →
      noGap (collapseWs x) = true := by
    intro n
    induction n with
    | zero =>
      intro x hx _
      have : x = [] := List.length_eq_zero.mp (Nat.le_zero.mp hx)
      subst this
      rfl
    | succ n ih =>
      intro x hx hgx
      cases x with
      | nil => rfl
      | cons c cs =>
        simp only [List.length_cons, Nat.succ_le_succ_iff] at hx
        rw [collapseWs_cons]
        split_ifs with h
        · have hr : (cs.dropWhile isWs).length ≤ n := le_trans (dropWhileWs_len cs) hx
          have hrg : noGap (cs.dropWhile isWs) = true :=
            noGap_dropWhile isWs cs (noGap_tail hgx)
          simp only [noGap, Bool.and_eq_true]
          refine ⟨by rw [if_neg (by decide)], ih _ hr hrg⟩
        · simp only [noGap, Bool.and_eq_true]
          refine ⟨?_, ih cs hx (noGap_tail hgx)⟩
          split_ifs with hc
          · rw [gapTest_collapse]
            simp only [noGap, Bool.and_eq_true] at hgx
            have := hgx.1
            rw [if_pos hc] at this
            exact this
          · rfl
  exact H l.length l le_rfl hg

theorem noWsRun_collapse (l : List Char) : noWsRun (collapseWs l) = true := by
  have H : ∀ (n : Nat) (x : List Char), x.length ≤ n → noWsRun (collapseWs x) = true := by
    intro n
    induction n with
    | zero =>
      intro x hx
      have : x = [] := List.length_eq_zero.mp (Nat.le_zero.mp hx)
      subst this
      rfl
    | succ n ih =>
      intro x hx
      cases x with
      | nil => rfl
      | cons c cs =>
        simp only [List.length_cons, Nat.succ_le_succ_iff] at hx
        rw [collapseWs_cons]
        split_ifs with h
        · have hr : (cs.dropWhile isWs).length ≤ n := le_trans (dropWhileWs_len cs) hx
          simp only [noWsRun, Bool.and_eq_true]
          refine ⟨?_, ih _ hr⟩
          rw [collapse_head_ws, isWsHead_dropWhile]
          simp
        · simp only [noWsRun, Bool.and_eq_true]
          refine ⟨?_, ih cs hx⟩
          rw [collapse_head_ws]
          by_cases hc : isWs c = true
          · have hh : isWsHead cs = false := by
              by_contra hh2
              exact h ⟨hc, by simpa using hh2⟩
            simp [hh]
          · simp [show isWs c = false from by simpa using hc]
  exact H l.length l le_rfl

theorem collapse_fix (l : List Char) (hr : noWsRun l = true) : collapseWs l = l := by
  have H : ∀ (n : Nat) (x : List Char), x.length ≤ n → noWsRun x = true →
      collapseWs x = x := by
    intro n
    induction n with
    | zero =>
      intro x hx _
      have : x = [] := List.length_eq_zero.mp (Nat.le_zero.mp hx)
      subst this
      rfl
    | succ n ih =>
      intro x hx hrx
      cases x with
      | nil => rfl
      | cons c cs =>
        simp only [List.length_cons, Nat.succ_le_succ_iff] at hx
        rw [collapseWs_cons]
        split_ifs with h
        · exfalso
          simp only [noWsRun, Bool.and_eq_true] at hrx
          have := hrx.1
          rw [h.1, h.2] at this
          simp at this
        · rw [ih cs hx (noWsRun_tail hrx)]
  exact H l.length l le_rfl hr

theorem dw_head_append {p : Char → Bool} {x : Char} : ∀ {a : List Char} (w : List Char),
    (a.dropWhile p).head? = some x → ((a ++ w).dropWhile p).head? = some x := by
  intro a
  induction a with
  | nil => intro w h; simp at h
  | cons c cs ih =>
    intro w h
    rw [List.dropWhile_cons] at h
    rw [List.cons_append, List.dropWhile_cons]
    split_ifs at h ⊢ with hp
    · exact ih w h
    · exact h

theorem gap_append_ws {a w : List Char} (hg : gapTest a = true) :
    gapTest (a ++ w) = true := by
  unfold gapTest at hg ⊢
  simp only [Bool.and_eq_true] at hg ⊢
  obtain ⟨hg1, hg2⟩ := hg
  cases a with
  | nil => simp at hg1
  | cons c cs =>
    constructor
    · rw [List.cons_append, List.takeWhile_cons]
      rw [List.takeWhile_cons] at hg1
      split_ifs at hg1 ⊢ with h
      · simp
      · simp at hg1
    · rw [List.cons_append, List.dropWhile_cons]
      rw [List.dropWhile_cons] at hg2
      split_ifs at hg2 ⊢ with h
      · simp only [decide_eq_true_eq] at hg2 ⊢
        exact dw_head_append w hg2
      · exact hg2

theorem noGap_append_ws : ∀ (a w : List Char),
    noGap (a ++ w) = true → w.all isWs = true → noGap a = true := by
  intro a w
  induction a with
  | nil => intro _ _; rfl
  | cons c cs ih =>
    intro h hw
    rw [List.cons_append] at h
    simp only [noGap, Bool.and_eq_true] at h ⊢
    obtain ⟨h1, h2⟩ := h
    refine ⟨?_, ih h2 hw⟩
    split_ifs with hc
    · rw [if_pos hc] at h1
      by_contra hgc
      have hgc2 : gapTest cs = true := by simpa using hgc
      have := gap_append_ws (w := w) hgc2
      rw [this] at h1
      simp at h1
    · rfl

theorem noWsRun_append_left : ∀ (a b : List Char),
    noWsRun (a ++ b) = true → noWsRun a = true := by
  intro a b
  induction a with
  | nil => intro _; rfl
  | cons c cs ih =>
    intro h
    rw [List.cons_append] at h
    simp only [noWsRun, Bool.and_eq_true] at h ⊢
    obtain ⟨h1, h2⟩ := h
    refine ⟨?_, ih h2⟩
    cases cs with
    | nil => simp [isWsHead]
    | cons d ds => exact h1

theorem noWsRun_dropWhile (p : Char → Bool) : ∀ l : List Char,
    noWsRun l = true → noWsRun (l.dropWhile p) = true := by
  intro l
  induction l with
  | nil => exact fun h => h
  | cons c cs ih =>
    intro h
    rw [List.dropWhile_cons]
    split_ifs with hp
    · exact ih (noWsRun_tail h)
    · exact h

theorem dropTrailWs_cons (c : Char) (cs : List Char) :
    dropTrailWs (c :: cs) =
      if ((dropTrailWs cs).isEmpty && isWs c) = true then [] else c :: dropTrailWs cs := rfl

theorem dt_nil : ∀ {l : List Char}, dropTrailWs l = [] → l.all isWs = true := by
  intro l
  induction l with
  | nil => intro _; rfl
  | cons c cs ih =>
    intro h
    rw [dropTrailWs_cons] at h
    split_ifs at h with hcond
    simp only [Bool.and_eq_true] at hcond
    have hcs : cs.all isWs = true := ih (by simpa using hcond.1)
    simp [List.all_cons, hcond.2, hcs]

theorem dt_decomp : ∀ l : List Char,
    ∃ w, l = dropTrailWs l ++ w ∧ w.all isWs = true := by
  intro l
  induction l with
  | nil => exact ⟨[], rfl, rfl⟩
  | cons c cs ih =>
    by_cases hcond : ((dropTrailWs cs).isEmpty && isWs c) = true
    · refine ⟨c :: cs, ?_, ?_⟩
      · have h0 : dropTrailWs (c :: cs) = [] := by
          rw [dropTrailWs_cons, if_pos hcond]
        rw [h0]
        rfl
      · simp only [Bool.and_eq_true] at hcond
        have hcs : cs.all isWs = true := dt_nil (by simpa using hcond.1)
        simp [List.all_cons, hcond.2, hcs]
    · obtain ⟨w, hw1, hw2⟩ := ih
      refine ⟨w, ?_, hw2⟩
      have h0 : dropTrailWs (c :: cs) = c :: dropTrailWs cs := by
        rw [dropTrailWs_cons, if_neg hcond]
      rw [h0, List.cons_append, ← hw1]

theorem noGap_dropTrail (l : List Char) (h : noGap l = true) :
    noGap (dropTrailWs l) = true := by
  obtain ⟨w, hw1, hw2⟩ := dt_decomp l
  exact noGap_append_ws _ w (by rw [← hw1]; exact h) hw2

theorem noWsRun_dropTrail (l : List Char) (h : noWsRun l = true) :
    noWsRun (dropTrailWs l) = true := by
  obtain ⟨w, hw1, _⟩ := dt_decomp l
  exact noWsRun_append_left _ w (by rw [← hw1]; exact h)

theorem noGap_stripWs (l : List Char) (h : noGap l = true) : noGap (stripWs l) = true :=
  noGap_dropTrail _ (noGap_dropWhile isWs l h)

theorem noWsRun_stripWs (l : List Char) (h : noWsRun l = true) :
    noWsRun (stripWs l) = true :=
  noWsRun_dropTrail _ (noWsRun_dropWhile isWs l h)

theorem dt_head : ∀ l : List Char,
    dropTrailWs l = [] ∨ (dropTrailWs l).head? = l.head? := by
  intro l
  cases l with
  | nil => exact Or.inl rfl
  | cons c cs =>
    by_cases hcond : ((dropTrailWs cs).isEmpty && isWs c) = true
    · left
      rw [dropTrailWs_cons, if_pos hcond]
    · right
      rw [dropTrailWs_cons, if_neg hcond]
      rfl

theorem dw_dt_dw (l : List Char) :
    (dropTrailWs (l.dropWhile isWs)).dropWhile isWs = dropTrailWs (l.dropWhile isWs) := by
  apply dropWhile_of_head_not
  intro c hc
  rcases dt_head (l.dropWhile isWs) with h | h
  · rw [h] at hc
    simp at hc
  · rw [h] at hc
    exact dw_head_not hc

theorem dt_idem : ∀ l : List Char, dropTrailWs (dropTrailWs l) = dropTrailWs l := by
  intro l
  induction l with
  | nil => rfl
  | cons c cs ih =>
    by_cases hcond : ((dropTrailWs cs).isEmpty && isWs c) = true
    · have h0 : dropTrailWs (c :: cs) = [] := by
        rw [dropTrailWs_cons, if_pos hcond]
      rw [h0]
      rfl
    · have h0 : dropTrailWs (c :: cs) = c :: dropTrailWs cs := by
        rw [dropTrailWs_cons, if_neg hcond]
      rw [h0, dropTrailWs_cons, ih, if_neg hcond]

theorem stripWs_idem (l : List Char) : stripWs (stripWs l) = stripWs l := by
  show dropTrailWs ((dropTrailWs (l.dropWhile isWs)).dropWhile isWs) = _
  rw [dw_dt_dw, dt_idem]
  rfl

theorem removeHash_fix (l : List Char) (h : noHash l = true) : removeHash l = l :=
  removeHashF_fix l.length l le_rfl h

/-- C7 (amended): the cleaning step is NOT idempotent in general — leftmost
non-overlapping keyword removal can splice together a fresh keyword
occurrence that survives the pass (counterexample: `"wewebb"` cleans to
`"web"`) — but it IS idempotent at every input whose cleaned output contains
no technical-keyword occurrence and no bracketed 8-alphanumeric hash: then
the removal steps have nothing left to remove, and the remaining rewrites
(empty-bracket collapse, whitespace collapse, trim) are proved to fix every
string the cleaning pipeline produces. -/
theorem clean_idempotent_when_no_survivor (s : List Char)
    (h1 : noHash (remove_technical_keywords_and_noise s) = true)
    (h2 : ∀ k ∈ technical_keywords,
      substrCI k (remove_technical_keywords_and_noise s) = false) :
    remove_technical_keywords_and_noise (remove_technical_keywords_and_noise s) =
      remove_technical_keywords_and_noise s := by
  have hog : noGap (remove_technical_keywords_and_noise s) = true := by
    show noGap (stripWs (collapseWs (emptyBr (removeKeywords (removeHash s))))) = true
    exact noGap_stripWs _ (noGap_collapse _ (noGap_emptyBr _))
  have hor : noWsRun (remove_technical_keywords_and_noise s) = true := by
    show noWsRun (stripWs (collapseWs (emptyBr (removeKeywords (removeHash s))))) = true
    exact noWsRun_stripWs _ (noWsRun_collapse _)
  have hos : stripWs (remove_technical_keywords_and_noise s) =
      remove_technical_keywords_and_noise s := by
    show stripWs (stripWs (collapseWs (emptyBr (removeKeywords (removeHash s))))) = _
    rw [stripWs_idem]
    rfl
  show stripWs (collapseWs (emptyBr (removeKeywords (removeHash
      (remove_technical_keywords_and_noise s))))) =
    remove_technical_keywords_and_noise s
  rw [removeHash_fix _ h1, removeKeywords_fix _ h2, emptyBr_fix _ hog,
    collapse_fix _ hor, hos]

/-- Witness for C7's amended theorem: `"abc"` cleans to itself, keyword- and
hash-free, so re-cleaning is the identity there. -/
theorem clean_idempotent_when_no_survivor_witness :
    noHash (remove_technical_keywords_and_noise (str "abc")) = true ∧
    (∀ k ∈ technical_keywords,
      substrCI k (remove_technical_keywords_and_noise (str "abc")) = false) ∧
    remove_technical_keywords_and_noise
        (remove_technical_keywords_and_noise (str "abc")) =
      remove_technical_keywords_and_noise (str "abc") :=
  ⟨by decide, by decide,
   clean_idempotent_when_no_survivor (str "abc") (by decide) (by decide)⟩

end AnimeRenamer
